import Mathlib

/-!
Verification of the molecule-core spec interpretation and execution engine.

The development shallowly embeds the two central modules:

* `molecule/settings.py` — the `SpecPreprocessor` (macro expansion of
  `%import` / `%env` directives) and the `SpecParser` (comment stripping,
  key/value resolution with continuation lines, per-key parser/verifier
  dispatch, repeated-key accumulation, vital-parameter validation);
* `molecule/handlers.py` — the `Runner` step driver
  (setup / pre_run / run / post_run / kill lifecycle).

Python string primitives (`strip`, `split(sep, 1)`, `rsplit("#", 1)`,
`readlines`, `os.path.dirname`, `os.path.join`) are modelled character by
character with Python's semantics.  File access is modelled by a finite
association list from paths to contents.  Potentially non-terminating
recursive macro expansion (the source does not bound import recursion) is
modelled with explicit fuel: the result `none` means the fuel ran out and
corresponds to no terminating behaviour of the source.  Shell evaluation
performed by the `%env` directive (`utils.eval_shell_argument` spawns a
subprocess) is kept abstract as a parameter, since no claim depends on it.
-/

set_option maxHeartbeats 1000000

deriving instance DecidableEq for Except

namespace Molecule

/-! ## Python string primitives -/

/-- Whitespace characters recognized by Python `str.strip` and friends. -/
def pyIsSpace (c : Char) : Bool :=
  c = ' ' || c = '\t' || c = '\n' || c = '\r' || c = '\x0b' || c = '\x0c'

/-- Characters of `str.lstrip()`. -/
def lstripL (l : List Char) : List Char := l.dropWhile pyIsSpace

/-- Characters of `str.rstrip()`. -/
def rstripL (l : List Char) : List Char := (l.reverse.dropWhile pyIsSpace).reverse

/-- Characters of `str.strip()`. -/
def stripL (l : List Char) : List Char := rstripL (lstripL l)

/-- Python `str.lstrip()`. -/
def pyLStrip (s : String) : String := ⟨lstripL s.data⟩

/-- Python `str.strip()`. -/
def pyStrip (s : String) : String := ⟨stripL s.data⟩

/-- Split a character list at the first occurrence of `sep`; `none` when
`sep` does not occur. -/
def splitOnceL (sep : Char) : List Char → Option (List Char × List Char)
  | [] => none
  | c :: cs =>
    if c = sep then some ([], cs)
    else (splitOnceL sep cs).map (fun p => (c :: p.1, p.2))

/-- Python `s.split(sep, 1)`: the first fragment together with the optional
remainder (`none` when `sep` does not occur in `s`). -/
def pySplit1 (sep : Char) (s : String) : String × Option String :=
  match splitOnceL sep s.data with
  | none => (s, none)
  | some (a, b) => (⟨a⟩, some ⟨b⟩)

/-- Python `s.rsplit("#", 1)[0]` at character level: everything before the
last occurrence of `sep`, or the whole list when `sep` does not occur.
Python's `rsplit` scans from the right, which is what the `reverse` does. -/
def rsplitOnceHeadL (sep : Char) (l : List Char) : List Char :=
  match splitOnceL sep l.reverse with
  | none => l
  | some (_, beforeRev) => beforeRev.reverse

/-- Python `s.rsplit("#", 1)[0]`. -/
def pyRsplitHashHead (s : String) : String := ⟨rsplitOnceHeadL '#' s.data⟩

/-- Python `s.startswith(pre)`. -/
def pyStartsWith (s pre : String) : Bool := pre.data.isPrefixOf s.data

/-- Helper for `pyReadlines`: Python `file.readlines()` keeps the newline
terminators and drops nothing. -/
def readlinesAux : List Char → List Char → List (List Char)
  | [], acc => if acc.isEmpty then [] else [acc.reverse]
  | c :: cs, acc =>
    if c = '\n' then (acc.reverse ++ ['\n']) :: readlinesAux cs []
    else readlinesAux cs (c :: acc)

/-- Python `readlines()` over a file content string. -/
def pyReadlines (s : String) : List String :=
  (readlinesAux s.data []).map (fun l => ⟨l⟩)

/-- Helper for `pySplitNl`: Python `s.split("\n")`. -/
def splitNlAux : List Char → List Char → List (List Char)
  | [], acc => [acc.reverse]
  | c :: cs, acc =>
    if c = '\n' then acc.reverse :: splitNlAux cs []
    else splitNlAux cs (c :: acc)

/-- Python `s.split("\n")` (fragments do not contain the separator). -/
def pySplitNl (s : String) : List String :=
  (splitNlAux s.data []).map (fun l => ⟨l⟩)

/-- Python `"".join(l)`. -/
def concatAll : List String → String
  | [] => ""
  | s :: rest => s ++ concatAll rest

/-- Python `"\n".join(l)`, used to state that a split text round-trips. -/
def nlIntercalate : List String → String
  | [] => ""
  | [s] => s
  | s :: rest => s ++ "\n" ++ nlIntercalate rest

/-! ## Paths and the file system

Files visible to the preprocessor are a finite association list from path
to content; membership models `os.path.isfile(p) and os.access(p, os.R_OK)`
together with a successful `codecs.open(p).readlines()`. -/

/-- Characters of `os.path.dirname`: everything up to the last slash, with
trailing slashes stripped unless the prefix consists only of slashes. -/
def dirnameL (p : List Char) : List Char :=
  match splitOnceL '/' p.reverse with
  | none => []
  | some (_, beforeRev) =>
    let head := beforeRev.reverse ++ ['/']
    if head.all (fun c => c = '/') then head
    else (head.reverse.dropWhile (fun c => c = '/')).reverse

/-- Python `os.path.dirname`. -/
def pyDirname (s : String) : String := ⟨dirnameL s.data⟩

/-- Python `os.path.join(a, b)` for POSIX paths. -/
def pyJoin (a b : String) : String :=
  if pyStartsWith b "/" then b
  else if a = "" then b
  else if a.data.getLast? = some '/' then a ++ b
  else a ++ "/" ++ b

/-- The file system model: readable files with their contents. -/
abbrev FS := List (String × String)

/-- File lookup: `some content` iff the path names a readable file. -/
def fsLookup (fs : FS) (p : String) : Option String :=
  (fs.find? (fun e => e.1 = p)).map (fun e => e.2)

/-! ## SpecPreprocessor (settings.py)

`SpecPreprocessor.parse` reads the root spec file, passes every line
through `_builtin_recursive_expand` (which dispatches on the first
space-separated token of the left-stripped line to the builtin expanders
`%import` and `%env`), then applies caller-registered expanders once, and
finally joins everything and splits on newlines.

`PreErr.preprocessorError` models `SpecPreprocessor.PreprocessorError`;
`PreErr.pyFault` models any other uncaught Python exception (for instance
the `IndexError` raised by `line.split(" ", 1)[1]` on a spaceless line). -/

inductive PreErr where
  | preprocessorError
  | pyFault

deriving DecidableEq

/-- First space-separated token of the left-stripped line, the dispatch key
of `_builtin_recursive_expand` (`line.lstrip().split(" ", 1)[0]`). -/
def firstTok (s : String) : String := (pySplit1 ' ' (pyLStrip s)).1

/-- The `lines += self._builtin_recursive_expand(line)` loop inside
`_import_expander`, abstracted over the recursive expansion `rec`.  An
error in any line aborts the whole import. -/
def expandList (rec : String → Option (Except PreErr String)) :
    List String → Option (Except PreErr String)
  | [] => some (.ok "")
  | l :: ls =>
    match rec l with
    | none => none
    | some (.error e) => some (.error e)
    | some (.ok s) =>
      match expandList rec ls with
      | none => none
      | some (.error e) => some (.error e)
      | some (.ok rest) => some (.ok (s ++ rest))

/-- Resolution of an `%import` target inside `_import_expander`: an
absolute path (leading `os.path.sep`) is used as-is, a relative one is
joined to `os.path.dirname(self._spec_path)` — the directory of the
preprocessor's own spec file. -/
def resolveImportPath (root rest : String) : String :=
  if pyStartsWith rest "/" then rest else pyJoin (pyDirname root) rest

/-- One layer of `_builtin_recursive_expand`, with the `%import` expander
inlined (`_import_expander`) and `%env` left abstract (`envF` stands for
`_env_expander`, whose shell evaluation spawns a subprocess and is outside
the engine).  `rec` is the recursive expansion applied to the lines of
an imported file. -/
def expandLayer (fs : FS) (root : String)
    (envF : String → Option (Except PreErr String))
    (rec : String → Option (Except PreErr String)) (line : String) :
    Option (Except PreErr String) :=
  let tok := firstTok line
  if tok = "%import" then
    match (pySplit1 ' ' line).2 with
    | none => some (.error .pyFault)
    | some rest0 =>
      let rest := pyStrip rest0
      if rest = "" then some (.ok line)
      else
        match fsLookup fs (resolveImportPath root rest) with
        | none => some (.error .preprocessorError)
        | some content => expandList rec (pyReadlines content)
  else if tok = "%env" then envF line
  else some (.ok line)

/-- `_builtin_recursive_expand` with explicit fuel; `none` means the fuel
ran out (the source does not bound import recursion). -/
def builtinExpand (fs : FS) (root : String)
    (envF : String → Option (Except PreErr String)) :
    Nat → String → Option (Except PreErr String)
  | 0, _ => none
  | fuel + 1, line => expandLayer fs root envF (builtinExpand fs root envF fuel) line

/-- First pass of `SpecPreprocessor.parse`: expand every line of the root
file, collecting the expanded strings in order. -/
def expandEach (rec : String → Option (Except PreErr String)) :
    List String → Option (Except PreErr (List String))
  | [] => some (.ok [])
  | l :: ls =>
    match rec l with
    | none => none
    | some (.error e) => some (.error e)
    | some (.ok s) =>
      match expandEach rec ls with
      | none => none
      | some (.error e) => some (.error e)
      | some (.ok rest) => some (.ok (s :: rest))

/-- A caller-registered (non-builtin) expander, dispatched on
`line.split(" ", 1)[0]` of the raw line. -/
abbrev UserExpanders := List (String × (String → Except PreErr String))

/-- Second pass of `SpecPreprocessor.parse`: apply a caller-registered
expander once when the first token of the raw line matches. -/
def userApply (userExp : UserExpanders) (line : String) : Except PreErr String :=
  match (userExp.find? (fun e => e.1 = (pySplit1 ' ' line).1)).map (fun e => e.2) with
  | none => .ok line
  | some f => f line

def userPass (userExp : UserExpanders) : List String → Except PreErr (List String)
  | [] => .ok []
  | l :: ls =>
    match userApply userExp l with
    | .error e => .error e
    | .ok s =>
      match userPass userExp ls with
      | .error e => .error e
      | .ok rest => .ok (s :: rest)

/-- `SpecPreprocessor.parse`: expand the root file's lines, run the
caller-registered expanders once, then join and split on newlines. -/
def preprocParse (fs : FS) (root : String)
    (envF : String → Option (Except PreErr String))
    (userExp : UserExpanders) (fuel : Nat) :
    Option (Except PreErr (List String)) :=
  match fsLookup fs root with
  | none => some (.error .pyFault)
  | some content =>
    match expandEach (builtinExpand fs root envF fuel) (pyReadlines content) with
    | none => none
    | some (.error e) => some (.error e)
    | some (.ok lines1) =>
      match userPass userExp lines1 with
      | .error e => some (.error e)
      | .ok lines2 => some (.ok (pySplitNl (concatAll lines2)))

/-- Abstract stand-in for `_env_expander` used in closed statements; the
real one shells out to a subprocess, which has no shallow embedding. -/
def envStub : String → Option (Except PreErr String) := fun _ => some (.error .pyFault)

/-- A line is directive-free when its dispatch token triggers no builtin
expander. -/
def directiveFreeLine (l : String) : Bool :=
  firstTok l ≠ "%import" && firstTok l ≠ "%env"

/-! ## SpecParser (settings.py)

Values produced by plugin-supplied parser callbacks.  `vstr` and `vlist`
are the two types with an accumulation rule; `vint` stands for any other
accepted Python value, `vnone` is Python `None` (the "invalid/skip"
sentinel a parser such as `_cast_integer` returns on failure), and
`vplugin` is the plugin object stored under the reserved key. -/

inductive PVal where
  | vstr (s : String)
  | vlist (l : List String)
  | vint (n : Int)
  | vnone
  | vplugin

deriving DecidableEq

/-- One parameter-schema entry: the dict `{'parser': ..., 'verifier': ...}`
supplied by the strategy plugin. -/
structure SchemaEntry where
  parser : String → PVal
  verifier : PVal → Bool

/-- The full parameter schema (`self.parameters`), `dict.get` included. -/
abbrev Params := List (String × SchemaEntry)

def lookupP (params : Params) (k : String) : Option SchemaEntry :=
  (params.find? (fun e => e.1 = k)).map (fun e => e.2)

/-- Association-list model of the Python dict `mydict` (insertion order
preserved; first matching key wins, as keys are unique by construction). -/
def lookupKey (m : List (String × PVal)) (k : String) : Option PVal :=
  (m.find? (fun e => e.1 = k)).map (fun e => e.2)

def updateKey : List (String × PVal) → String → PVal → List (String × PVal)
  | [], _, _ => []
  | (k0, v0) :: ms, k, nv =>
    if k0 = k then (k0, nv) :: ms else (k0, v0) :: updateKey ms k nv

def hasKey (m : List (String × PVal)) (k : String) : Bool := (lookupKey m k).isSome

/-- `SpecParser._generic_parser`: drop lines that start with `#` or are
blank, then strip, drop everything from the last `#` on, and strip again. -/
def genericParser (content : List String) : List String :=
  (content.filter (fun x => !(pyStartsWith x "#") && pyStrip x ≠ "")).map
    (fun x => pyStrip (pyRsplitHashHead (pyStrip x)))

/-- `SpecParser.parse_line_statement`: split on the first `:`; a line
without a colon yields `(None, None)` via the caught `ValueError`. -/
def parse_line_statement (line : String) : Option (String × String) :=
  match (pySplit1 ':' line).2 with
  | none => none
  | some v => some (pyStrip (pySplit1 ':' line).1, pyStrip v)

/-- Resolution of one line against the schema: `some (key, payload, entry)`
when the line splits as `key: value` with a recognized key. -/
def matchLine (params : Params) (line : String) : Option (String × String × SchemaEntry) :=
  match parse_line_statement line with
  | none => none
  | some (k, v) =>
    match lookupP params k with
    | none => none
    | some cd => some (k, v, cd)

/-- Accumulation of a repeated key (the `mydict[key] += ...` branches):
Python string `+=` concatenates, list `+=` extends element-wise (so
extending a list with a string appends its characters), any other
left-hand type raises `TypeError` (`none`), and a new value of any other
type falls to the bare `continue`, keeping the first value. -/
def mergeValue (old new : PVal) : Option PVal :=
  match new with
  | .vstr s =>
    match old with
    | .vstr t => some (.vstr (t ++ " " ++ s))
    | .vlist l => some (.vlist (l ++ (" " ++ s).data.map (fun c => String.mk [c])))
    | _ => none
  | .vlist l =>
    match old with
    | .vstr _ => none
    | .vlist m => some (.vlist (m ++ l))
    | _ => none
  | _ => some old

/-- Run one resolved payload through parser and verifier, then merge it
into `mydict`; `some mydict` unchanged when the verifier rejects, `none`
when the merge raises `TypeError`. -/
def applyEntry (cd : SchemaEntry) (k raw : String) (mydict : List (String × PVal)) :
    Option (List (String × PVal)) :=
  let v := cd.parser raw
  if cd.verifier v then
    match lookupKey mydict k with
    | some oldv => (mergeValue oldv v).map (fun nv => updateKey mydict k nv)
    | none => some (mydict ++ [(k, v)])
  else some mydict

/-- The main loop of `SpecParser.parse`: top-to-bottom scan carrying the
active `old_key` and the accumulating `mydict`. -/
def parseLoop (params : Params) :
    List String → Option String → List (String × PVal) → Option (List (String × PVal))
  | [], _, mydict => some mydict
  | line :: rest, old_key, mydict =>
    match matchLine params line with
    | some (k, v, cd) =>
      match applyEntry cd k v mydict with
      | none => none
      | some m2 => parseLoop params rest (some k) m2
    | none =>
      match old_key with
      | some k =>
        let v := pyStrip line
        if v = "" then parseLoop params rest old_key mydict
        else
          match lookupP params k with
          | none => parseLoop params rest old_key mydict
          | some cd =>
            match applyEntry cd k v mydict with
            | none => none
            | some m2 => parseLoop params rest old_key m2
      | none => parseLoop params rest none mydict

/-- The `(key, raw payload)` pairs the scan resolves, before parser and
verifier run (same branch structure as `parseLoop`). -/
def resolvedPairs (params : Params) :
    List String → Option String → List (String × String)
  | [], _ => []
  | line :: rest, old_key =>
    match matchLine params line with
    | some (k, v, _) => (k, v) :: resolvedPairs params rest (some k)
    | none =>
      match old_key with
      | some k =>
        let v := pyStrip line
        if v = "" then resolvedPairs params rest old_key
        else
          match lookupP params k with
          | none => resolvedPairs params rest old_key
          | some _ => (k, v) :: resolvedPairs params rest old_key
      | none => resolvedPairs params rest none

/-- The `(key, parsed value)` pairs that pass both parser and verifier, in
scan order (same branch structure as `parseLoop`). -/
def acceptedPairs (params : Params) :
    List String → Option String → List (String × PVal)
  | [], _ => []
  | line :: rest, old_key =>
    match matchLine params line with
    | some (k, v, cd) =>
      (if cd.verifier (cd.parser v) then [(k, cd.parser v)] else [])
        ++ acceptedPairs params rest (some k)
    | none =>
      match old_key with
      | some k =>
        let v := pyStrip line
        if v = "" then acceptedPairs params rest old_key
        else
          match lookupP params k with
          | none => acceptedPairs params rest old_key
          | some cd =>
            (if cd.verifier (cd.parser v) then [(k, cd.parser v)] else [])
              ++ acceptedPairs params rest old_key
      | none => acceptedPairs params rest none

/-- Fold a list of accepted pairs into `mydict` with the accumulation
rule; `none` when a merge raises `TypeError`. -/
def accumulate : List (String × PVal) → List (String × PVal) → Option (List (String × PVal))
  | [], m => some m
  | (k, v) :: ps, m =>
    match lookupKey m k with
    | some oldv =>
      match mergeValue oldv v with
      | none => none
      | some nv => accumulate ps (updateKey m k nv)
    | none => accumulate ps (m ++ [(k, v)])

/-- The reserved entry: `mydict['__plugin__'] = self.__plugin`. -/
def setPlugin (m : List (String × PVal)) : List (String × PVal) :=
  if hasKey m "__plugin__" then updateKey m "__plugin__" .vplugin
  else m ++ [("__plugin__", .vplugin)]

/-- Parse-level errors: a `TypeError` escaping the accumulation, or the
`SpecFileError` raised by `validate_parse` naming the spec file path and
the missing vital parameter. -/
inductive ParseErr where
  | typeError
  | specFileError (path : String) (param : String)

deriving DecidableEq

/-- `SpecParser.parse` over preprocessed content: generic-line filtering,
the scan loop, the reserved plugin entry, and `validate_parse`. -/
def specParse (params : Params) (vital : List String) (filepath : String)
    (content : List String) : Except ParseErr (List (String × PVal)) :=
  let data := genericParser content
  match parseLoop params data none [] with
  | none => .error .typeError
  | some m =>
    let m2 := setPlugin m
    match vital.find? (fun p => !(hasKey m2 p)) with
    | some p => .error (.specFileError filepath p)
    | none => .ok m2

/-! ## Step Runner (handlers.py)

Each execution step exposes four lifecycle hooks.  A hook either returns
an integer status code or raises an abnormal fault; the teardown hook
`kill` itself always succeeds (as `Runner.kill` does).  `Runner.run`
instantiates each step class in order and drives it through the
`while True: try ... except: kill(False); raise` body of the source. -/

inductive HookRes where
  | ok (code : Int)
  | fault

deriving DecidableEq

structure Step where
  setup : HookRes
  pre_run : HookRes
  run : HookRes
  post_run : HookRes

deriving DecidableEq

inductive HookName where
  | setup
  | pre_run
  | run
  | post_run

deriving DecidableEq

/-- Observable events of a `Runner.run` execution: step instantiation,
hook invocation, and the `kill(success = ...)` teardown call. -/
inductive Event where
  | inst (i : Nat)
  | call (i : Nat) (h : HookName)
  | kill (i : Nat) (success : Bool)

deriving DecidableEq

/-- Outcome of the runner (or of a single step body): a returned status
code, or a fault propagating to the caller. -/
inductive StepRes where
  | done (rc : Int)
  | raised

deriving DecidableEq

/-- The per-step body of `Runner.run`: the four hooks in order inside the
`try`, each non-zero code breaking out, the `except` clause calling
`kill(success=False)` and re-raising, and the final
`kill(success = rc == 0)` on the normal path. -/
def stepExec (i : Nat) (s : Step) : StepRes × List Event :=
  match s.setup with
  | .fault => (.raised, [.call i .setup, .kill i false])
  | .ok rc1 =>
    if rc1 ≠ 0 then (.done rc1, [.call i .setup, .kill i false])
    else
      match s.pre_run with
      | .fault => (.raised, [.call i .setup, .call i .pre_run, .kill i false])
      | .ok rc2 =>
        if rc2 ≠ 0 then
          (.done rc2, [.call i .setup, .call i .pre_run, .kill i false])
        else
          match s.run with
          | .fault =>
            (.raised, [.call i .setup, .call i .pre_run, .call i .run, .kill i false])
          | .ok rc3 =>
            if rc3 ≠ 0 then
              (.done rc3, [.call i .setup, .call i .pre_run, .call i .run, .kill i false])
            else
              match s.post_run with
              | .fault =>
                (.raised, [.call i .setup, .call i .pre_run, .call i .run,
                  .call i .post_run, .kill i false])
              | .ok rc4 =>
                if rc4 ≠ 0 then
                  (.done rc4, [.call i .setup, .call i .pre_run, .call i .run,
                    .call i .post_run, .kill i false])
                else
                  (.done 0, [.call i .setup, .call i .pre_run, .call i .run,
                    .call i .post_run, .kill i true])

/-- The `for myclass in self.execution_order` loop: instantiate, run the
step body, stop on a fault or a non-zero code, otherwise continue; `i` is
the index of the next step. -/
def runSteps (i : Nat) : List Step → StepRes × List Event
  | [] => (.done 0, [])
  | s :: rest =>
    let r := stepExec i s
    match r.1 with
    | .raised => (.raised, .inst i :: r.2)
    | .done rc =>
      if rc ≠ 0 then (.done rc, .inst i :: r.2)
      else
        let r2 := runSteps (i + 1) rest
        (r2.1, .inst i :: r.2 ++ r2.2)

/-- `Runner.run` over the plugin's ordered `execution_steps()`. -/
def Runner.run (steps : List Step) : StepRes × List Event := runSteps 0 steps

/-! Claim-side descriptions of the runner, written from the spec's words.  -/

/-- The step's effective result per the spec's transition rule: the first
non-zero status code of setup, pre_run, run, post_run (or the first
fault), else status zero. -/
def stepOutcome (s : Step) : HookRes :=
  match s.setup with
  | .fault => .fault
  | .ok c1 =>
    if c1 ≠ 0 then .ok c1
    else
      match s.pre_run with
      | .fault => .fault
      | .ok c2 =>
        if c2 ≠ 0 then .ok c2
        else
          match s.run with
          | .fault => .fault
          | .ok c3 =>
            if c3 ≠ 0 then .ok c3
            else
              match s.post_run with
              | .fault => .fault
              | .ok c4 => if c4 ≠ 0 then .ok c4 else .ok 0

/-- The hooks the spec says are driven for one step: setup, pre_run, run,
post_run in order, stopping after the first non-zero code or fault. -/
def specHookSeq (s : Step) : List HookName :=
  match s.setup with
  | .fault => [.setup]
  | .ok c1 =>
    if c1 ≠ 0 then [.setup]
    else
      match s.pre_run with
      | .fault => [.setup, .pre_run]
      | .ok c2 =>
        if c2 ≠ 0 then [.setup, .pre_run]
        else
          match s.run with
          | .fault => [.setup, .pre_run, .run]
          | .ok c3 =>
            if c3 ≠ 0 then [.setup, .pre_run, .run]
            else [.setup, .pre_run, .run, .post_run]

/-- The return value the spec promises from the runner on a fault-free
list: the first non-zero step status code, else zero. -/
def specFirstCode : List Step → Int
  | [] => 0
  | s :: rest =>
    match stepOutcome s with
    | .fault => 0
    | .ok c => if c ≠ 0 then c else specFirstCode rest

/-- The instantiation/hook-call trace the spec describes for a fault-free
list: each step in order is instantiated and driven through its hooks,
and the list stops right after the first step with a non-zero code. -/
def specInstCallTrace (i : Nat) : List Step → List Event
  | [] => []
  | s :: rest =>
    (.inst i :: (specHookSeq s).map (fun h => .call i h))
      ++ (match stepOutcome s with
        | .ok c => if c = 0 then specInstCallTrace (i + 1) rest else []
        | .fault => [])

/-- Success flag the teardown hook receives per the spec: `false` on the
fault path, `status == 0` otherwise. -/
def killFlag (s : Step) : Bool :=
  match stepOutcome s with
  | .fault => false
  | .ok c => decide (c = 0)

def isKillEvent : Event → Bool
  | .kill _ _ => true
  | _ => false

def isKillOf (j : Nat) : Event → Bool
  | .kill i _ => i = j
  | _ => false

/-- A step none of whose hooks faults. -/
def noFault (s : Step) : Bool :=
  s.setup ≠ .fault && s.pre_run ≠ .fault && s.run ≠ .fault && s.post_run ≠ .fault

/-- Outcome of one step body as a `StepRes`. -/
def stepResOf (s : Step) : StepRes :=
  match stepOutcome s with
  | .fault => .raised
  | .ok c => .done c

/-- Index carried by an event. -/
def evIdx : Event → Nat
  | .inst i => i
  | .call i _ => i
  | .kill i _ => i

def isInstEvent : Event → Bool
  | .inst _ => true
  | _ => false

/-- The values accepted for one key, in scan order. -/
def valuesFor (k : String) (ps : List (String × PVal)) : List PVal :=
  ps.filterMap (fun p => if p.1 = k then some p.2 else none)

/-- The per-key view of the accumulation: fold the merge rule over the
accepted values of one key. -/
def foldKey : Option PVal → List PVal → Option (Option PVal)
  | cur, [] => some cur
  | none, v :: vs => foldKey (some v) vs
  | some c, v :: vs =>
    match mergeValue c v with
    | none => none
    | some nv => foldKey (some nv) vs

/-- Python `" ".join`-style folding for the string accumulation rule. -/
def joinSpace : List String → String
  | [] => ""
  | [s] => s
  | s :: rest => s ++ " " ++ joinSpace rest

/-- A value of neither string nor list type. -/
def isOtherVal : PVal → Bool
  | .vstr _ => false
  | .vlist _ => false
  | _ => true

/-- Resolution scan exactly as claim C8 words it: a non-matching line with
an active current key always contributes the whole stripped line as a
continuation payload. -/
def claimResolvedPairs (params : Params) :
    List String → Option String → List (String × String)
  | [], _ => []
  | line :: rest, cur =>
    match matchLine params line with
    | some (k, v, _) => (k, v) :: claimResolvedPairs params rest (some k)
    | none =>
      match cur with
      | some k => (k, pyStrip line) :: claimResolvedPairs params rest cur
      | none => claimResolvedPairs params rest cur

/-- Claim C8 amended: a continuation line contributes only when its
stripped text is non-empty; an empty line is skipped, the current key
staying active. -/
def claimResolvedPairsAmended (params : Params) :
    List String → Option String → List (String × String)
  | [], _ => []
  | line :: rest, cur =>
    match matchLine params line with
    | some (k, v, _) => (k, v) :: claimResolvedPairsAmended params rest (some k)
    | none =>
      match cur with
      | some k =>
        if pyStrip line = "" then claimResolvedPairsAmended params rest cur
        else (k, pyStrip line) :: claimResolvedPairsAmended params rest cur
      | none => claimResolvedPairsAmended params rest cur

/-- Everything before the last `#`, by a left scan: a `#` is kept exactly
when another `#` occurs later; the last `#` and everything after it are
dropped (claim side of C6 as amended). -/
def cutAfterLastHash : List Char → List Char
  | [] => []
  | c :: cs =>
    if c = '#' then (if '#' ∈ cs then c :: cutAfterLastHash cs else [])
    else c :: cutAfterLastHash cs

/-- Cut of the original claim C6: remove everything from the first
unescaped `#` (one not preceded by a backslash) on; an escaped `#` is
kept. -/
def cutFirstUnescapedHash : List Char → List Char
  | [] => []
  | '\\' :: c :: cs => '\\' :: c :: cutFirstUnescapedHash cs
  | c :: cs => if c = '#' then [] else c :: cutFirstUnescapedHash cs

/-- The generic line set exactly as claim C6 words it: blank lines and
full-line comments removed, the text after the first unescaped `#`
stripped. -/
def claimGenericOrig (content : List String) : List String :=
  (content.filter (fun x => pyStrip x ≠ "" && !(pyStartsWith (pyStrip x) "#"))).map
    (fun x => pyStrip ⟨cutFirstUnescapedHash (pyStrip x).data⟩)

/-- The generic line set as claim C6 amended: lines whose raw text begins
with `#` and raw-blank lines are removed, the rest is stripped and cut
after the last `#` (no escape mechanism, text before the last `#`,
earlier `#` included, is preserved). -/
def claimGenericAmended (content : List String) : List String :=
  (content.filter (fun x => !(pyStartsWith x "#") && pyStrip x ≠ "")).map
    (fun x => pyStrip ⟨cutAfterLastHash (pyStrip x).data⟩)

/-- Import chain A → B → C used for C5: `/a/root.spec` imports
`sub/b.spec`, which imports `c.spec`; both relative targets resolve
against `/a`, the directory of the root spec file. -/
def fsChainA (cC : String) : FS :=
  [("/a/root.spec", "%import sub/b.spec\n"),
    ("/a/sub/b.spec", "%import c.spec\n"),
    ("/a/c.spec", cC)]

/-- The same chain with the final target `/a/c.spec` missing. -/
def fsChainMissing : FS :=
  [("/a/root.spec", "%import sub/b.spec\n"),
    ("/a/sub/b.spec", "%import c.spec\n")]

/-- A root importing an absolute path. -/
def fsAbs (cC : String) : FS :=
  [("/r.spec", "%import /a/c.spec\n"), ("/a/c.spec", cC)]

/-- The chain file system extended with `/a/sub/c.spec`, the file the
original claim C5 says the inner import should resolve to. -/
def fsChainBoth : FS :=
  [("/a/root.spec", "%import sub/b.spec\n"),
    ("/a/sub/b.spec", "%import c.spec\n"),
    ("/a/c.spec", "hello\n"),
    ("/a/sub/c.spec", "sub-hello\n")]

/-! ## Lemmas and claim theorems -/

theorem strMk_append (a b : List Char) : (⟨a⟩ : String) ++ (⟨b⟩ : String) = ⟨a ++ b⟩ := rfl

theorem strExt {a b : String} (h : a.data = b.data) : a = b := by
  cases a; cases b; exact congrArg String.mk h

theorem concatAll_map_mk_readlinesAux (cs : List Char) :
    ∀ acc, concatAll ((readlinesAux cs acc).map (fun l => (⟨l⟩ : String)))
      = ⟨acc.reverse ++ cs⟩ := by
  induction cs with
  | nil =>
    intro acc
    by_cases h : acc.isEmpty
    · simp only [readlinesAux, h, if_pos]
      simp only [List.map_nil, concatAll]
      have : acc = [] := by simpa [List.isEmpty_iff] using h
      simp [this]
    · simp only [readlinesAux, h, if_neg, Bool.false_eq_true, not_false_iff]
      simp only [List.map_cons, List.map_nil, concatAll]
      apply strExt
      simp [String.data]
  | cons c cs ih =>
    intro acc
    by_cases h : c = '\n'
    · subst h
      simp only [readlinesAux, if_pos rfl, List.map_cons, concatAll, ih []]
      apply strExt
      simp [String.data]
    · simp only [readlinesAux, if_neg h, ih (c :: acc)]
      simp

/-- Joining `readlines` output recovers the original text. -/
theorem concatAll_pyReadlines (s : String) : concatAll (pyReadlines s) = s := by
  unfold pyReadlines
  rw [concatAll_map_mk_readlinesAux]
  simp

theorem splitNlAux_ne_nil (cs : List Char) : ∀ acc, splitNlAux cs acc ≠ [] := by
  induction cs with
  | nil => intro acc; simp [splitNlAux]
  | cons c cs ih =>
    intro acc
    by_cases h : c = '\n'
    · simp [splitNlAux, h]
    · simp only [splitNlAux, if_neg h]
      exact ih _

theorem nlIntercalate_map_mk_splitNlAux (cs : List Char) :
    ∀ acc, nlIntercalate ((splitNlAux cs acc).map (fun l => (⟨l⟩ : String)))
      = ⟨acc.reverse ++ cs⟩ := by
  induction cs with
  | nil =>
    intro acc
    simp [splitNlAux, nlIntercalate]
  | cons c cs ih =>
    intro acc
    by_cases h : c = '\n'
    · subst h
      simp only [splitNlAux, if_pos rfl, List.map_cons]
      have hne : splitNlAux cs [] ≠ [] := splitNlAux_ne_nil cs []
      match hsp : splitNlAux cs [] with
      | [] => exact absurd hsp hne
      | l :: ls =>
        simp only [List.map_cons, nlIntercalate]
        have := ih []
        rw [hsp] at this
        simp only [List.map_cons] at this
        rw [this]
        apply strExt
        simp [String.data]
    · simp only [splitNlAux, if_neg h, ih (c :: acc)]
      simp

/-- Joining a `split("\n")` with newlines recovers the original text. -/
theorem nlIntercalate_pySplitNl (s : String) : nlIntercalate (pySplitNl s) = s := by
  unfold pySplitNl
  rw [nlIntercalate_map_mk_splitNlAux]
  simp

/-! ### Runner lemmas -/

theorem stepExec_char (i : Nat) (s : Step) :
    stepExec i s =
      (stepResOf s,
        (specHookSeq s).map (fun h => Event.call i h) ++ [Event.kill i (killFlag s)]) := by
  rcases s with ⟨su, pr, ru, po⟩
  cases su <;> cases pr <;> cases ru <;> cases po <;>
    simp only [stepExec, stepResOf, stepOutcome, specHookSeq, killFlag] <;>
    (try split_ifs) <;> simp_all

theorem noFault_stepOutcome {s : Step} (h : noFault s = true) : stepOutcome s ≠ .fault := by
  rcases s with ⟨su, pr, ru, po⟩
  simp only [noFault, Bool.and_eq_true, decide_eq_true_eq] at h
  obtain ⟨⟨⟨h1, h2⟩, h3⟩, h4⟩ := h
  cases su <;> cases pr <;> cases ru <;> cases po <;>
    simp_all [stepOutcome] <;> (try split_ifs) <;> simp_all

theorem stepExec_mem {i : Nat} {s : Step} {e : Event} (h : e ∈ (stepExec i s).2) :
    evIdx e = i ∧ isInstEvent e = false := by
  rw [stepExec_char] at h
  simp only [List.mem_append, List.mem_map, List.mem_singleton] at h
  rcases h with ⟨hk, _, rfl⟩ | rfl <;> simp [evIdx, isInstEvent]

theorem runSteps_mem_idx {steps : List Step} :
    ∀ {i : Nat} {e : Event}, e ∈ (runSteps i steps).2 → i ≤ evIdx e := by
  induction steps with
  | nil => intro i e h; simp [runSteps] at h
  | cons s rest ih =>
    intro i e h
    simp only [runSteps] at h
    rcases hres : (stepExec i s).1 with rc | _
    · rw [hres] at h
      by_cases hrc : rc ≠ 0
      · simp only [if_pos hrc] at h
        rcases List.mem_cons.mp h with rfl | h2
        · simp [evIdx]
        · exact le_of_eq (stepExec_mem h2).1.symm
      · simp only [if_neg hrc] at h
        rcases List.mem_cons.mp h with rfl | h2
        · simp [evIdx]
        · rcases List.mem_append.mp h2 with h3 | h3
          · exact le_of_eq (stepExec_mem h3).1.symm
          · exact Nat.le_of_succ_le (ih h3)
    · rw [hres] at h
      rcases List.mem_cons.mp h with rfl | h2
      · simp [evIdx]
      · exact le_of_eq (stepExec_mem h2).1.symm

@[simp] theorem isKillEvent_inst (i : Nat) : isKillEvent (.inst i) = false := rfl

@[simp] theorem isKillEvent_call (i : Nat) (h : HookName) :
    isKillEvent (.call i h) = false := rfl

@[simp] theorem isKillEvent_kill (i : Nat) (b : Bool) :
    isKillEvent (.kill i b) = true := rfl

@[simp] theorem isKillOf_inst (j i : Nat) : isKillOf j (.inst i) = false := rfl

@[simp] theorem isKillOf_call (j i : Nat) (h : HookName) :
    isKillOf j (.call i h) = false := rfl

@[simp] theorem isKillOf_kill (j i : Nat) (b : Bool) :
    isKillOf j (.kill i b) = decide (i = j) := rfl

@[simp] theorem filter_not_kill_map (i : Nat) (hs : List HookName) :
    (hs.map (fun h => Event.call i h)).filter (fun e => !isKillEvent e)
      = hs.map (fun h => Event.call i h) := by
  induction hs with
  | nil => simp
  | cons a t ih => simp [ih]

@[simp] theorem filter_kill_map (i : Nat) (hs : List HookName) :
    (hs.map (fun h => Event.call i h)).filter isKillEvent = [] := by
  induction hs with
  | nil => simp
  | cons a t ih => simp [ih]

@[simp] theorem filter_killOf_map (j i : Nat) (hs : List HookName) :
    (hs.map (fun h => Event.call i h)).filter (isKillOf j) = [] := by
  induction hs with
  | nil => simp
  | cons a t ih => simp [ih]

theorem noFault_outcome_ok {s : Step} (hs : noFault s = true) :
    ∃ c : Int, stepOutcome s = .ok c := by
  cases hso : stepOutcome s with
  | ok c => exact ⟨c, rfl⟩
  | fault => exact absurd hso (noFault_stepOutcome hs)

theorem runSteps_noFault (steps : List Step) :
    ∀ i, (∀ s ∈ steps, noFault s = true) →
      (runSteps i steps).1 = .done (specFirstCode steps) ∧
      (runSteps i steps).2.filter (fun e => !isKillEvent e) = specInstCallTrace i steps := by
  induction steps with
  | nil => intro i _; simp [runSteps, specFirstCode, specInstCallTrace]
  | cons s rest ih =>
    intro i h
    have hs : noFault s = true := h s (List.mem_cons_self s rest)
    have hrest : ∀ t ∈ rest, noFault t = true := fun t ht => h t (List.mem_cons_of_mem _ ht)
    obtain ⟨c, hc⟩ := noFault_outcome_ok hs
    have hres : stepResOf s = .done c := by simp [stepResOf, hc]
    have hspec : specInstCallTrace i (s :: rest)
        = (Event.inst i :: (specHookSeq s).map (fun h => Event.call i h))
          ++ (if c = 0 then specInstCallTrace (i + 1) rest else []) := by
      simp [specInstCallTrace, hc]
    have hcode : specFirstCode (s :: rest)
        = (if c = 0 then specFirstCode rest else c) := by
      by_cases hz : c = 0 <;> simp [specFirstCode, hc, hz]
    by_cases hz : c = 0
    · subst hz
      obtain ⟨h1, h2⟩ := ih (i + 1) hrest
      constructor
      · simp [runSteps, stepExec_char, hres, hcode, h1]
      · simp [runSteps, stepExec_char, hres, hspec, h2, List.filter_append]
    · constructor
      · simp [runSteps, stepExec_char, hres, hcode, hz]
      · simp [runSteps, stepExec_char, hres, hspec, hz, List.filter_append]

theorem runSteps_raised_last (steps : List Step) :
    ∀ i, (runSteps i steps).1 = .raised →
      ∃ j, (runSteps i steps).2.getLast? = some (.kill j false) := by
  induction steps with
  | nil => intro i h; simp [runSteps] at h
  | cons s rest ih =>
    intro i h
    cases hso : stepOutcome s with
    | fault =>
      have hres : stepResOf s = .raised := by simp [stepResOf, hso]
      have hkf : killFlag s = false := by simp [killFlag, hso]
      refine ⟨i, ?_⟩
      simp only [runSteps, stepExec_char, hres, hkf]
      rw [← List.cons_append, List.getLast?_concat]
    | ok c =>
      have hres : stepResOf s = .done c := by simp [stepResOf, hso]
      by_cases hz : c = 0
      · subst hz
        have houter : (runSteps i (s :: rest)).1 = (runSteps (i + 1) rest).1 := by
          simp [runSteps, stepExec_char, hres]
        obtain ⟨j, hj⟩ := ih (i + 1) (houter ▸ h)
        refine ⟨j, ?_⟩
        have hne : (runSteps (i + 1) rest).2 ≠ [] := by
          intro he; rw [he] at hj; simp at hj
        simp only [runSteps, stepExec_char, hres, ne_eq, not_true_eq_false, if_false]
        rw [List.getLast?_append, hj]
        rfl
      · exfalso
        have : (runSteps i (s :: rest)).1 = .done c := by
          simp [runSteps, stepExec_char, hres, hz]
        rw [this] at h
        exact StepRes.noConfusion h

theorem filter_killOf_eq_nil_of_lt {j : Nat} {l : List Event}
    (h : ∀ e ∈ l, j < evIdx e) : l.filter (isKillOf j) = [] := by
  rw [List.filter_eq_nil_iff]
  intro e he
  have hlt := h e he
  cases e <;> simp_all [isKillOf, evIdx] <;> omega

theorem stepExec_no_inst {i : Nat} {s : Step} {j : Nat} :
    Event.inst j ∉ (stepExec i s).2 := by
  intro hmem
  have := (stepExec_mem hmem).2
  simp [isInstEvent] at this

theorem runSteps_kill_once (steps : List Step) :
    ∀ i j s, steps.get? j = some s → Event.inst (i + j) ∈ (runSteps i steps).2 →
      (runSteps i steps).2.filter (isKillOf (i + j))
          = [Event.kill (i + j) (killFlag s)]
      ∧ (stepOutcome s = .fault → (runSteps i steps).1 = .raised) := by
  induction steps with
  | nil => intro i j s hg; simp at hg
  | cons s0 rest ih =>
    intro i j s hg hmem
    cases j with
    | zero =>
      have hs : s = s0 := by simpa using hg.symm
      subst hs
      have hfil : ((stepExec i s).2).filter (isKillOf (i + 0))
          = [Event.kill (i + 0) (killFlag s)] := by
        rw [stepExec_char]
        simp [List.filter_append]
      cases hso : stepOutcome s with
      | fault =>
        have hres : stepResOf s = .raised := by simp [stepResOf, hso]
        constructor
        · simp only [runSteps, stepExec_char, hres] at *
          simpa using hfil
        · intro _
          simp [runSteps, stepExec_char, hres]
      | ok c =>
        have hres : stepResOf s = .done c := by simp [stepResOf, hso]
        by_cases hz : c = 0
        · subst hz
          have htail : ((runSteps (i + 1) rest).2).filter (isKillOf (i + 0)) = [] := by
            apply filter_killOf_eq_nil_of_lt
            intro e he
            have := runSteps_mem_idx he
            omega
          constructor
          · simp only [runSteps, stepExec_char, hres, ne_eq, not_true_eq_false, if_false]
            rw [List.filter_append, List.filter_cons]
            simp only [isKillOf_inst, Bool.false_eq_true, if_false]
            rw [stepExec_char] at hfil
            simp only at hfil
            rw [hfil, htail]
            simp
          · intro hf; exact absurd hf (by simp)
        · constructor
          · simp only [runSteps, stepExec_char, hres, if_pos hz]
            rw [List.filter_cons]
            simp only [isKillOf_inst, Bool.false_eq_true, if_false]
            rw [stepExec_char] at hfil
            simpa using hfil
          · intro hf; exact absurd hf (by simp)
    | succ j2 =>
      have hg2 : rest.get? j2 = some s := by simpa using hg
      have hne : i + (j2 + 1) ≠ i := by omega
      have hmem2 : Event.inst (i + (j2 + 1)) ∈ (runSteps (i + 1) rest).2 := by
        cases hso : stepOutcome s0 with
        | fault =>
          exfalso
          have hres : stepResOf s0 = .raised := by simp [stepResOf, hso]
          simp only [runSteps, stepExec_char, hres] at hmem
          rcases List.mem_cons.mp hmem with heq | hmem3
          · exact hne (by injection heq)
          · rcases List.mem_append.mp (by
              simpa using hmem3 : Event.inst (i + (j2 + 1))
                ∈ (specHookSeq s0).map (fun h => Event.call i h)
                  ++ [Event.kill i (killFlag s0)]) with h4 | h4
            · rcases List.mem_map.mp h4 with ⟨x, _, hx⟩
              exact Event.noConfusion hx
            · simp at h4
        | ok c =>
          have hres : stepResOf s0 = .done c := by simp [stepResOf, hso]
          by_cases hz : c = 0
          · subst hz
            simp only [runSteps, stepExec_char, hres, ne_eq, not_true_eq_false,
              if_false] at hmem
            rcases List.mem_append.mp hmem with h3 | h3
            · exfalso
              rcases List.mem_cons.mp h3 with heq | hmem3
              · exact hne (by injection heq)
              · rcases List.mem_append.mp hmem3 with h4 | h4
                · rcases List.mem_map.mp h4 with ⟨x, _, hx⟩
                  exact Event.noConfusion hx
                · simp at h4
            · exact h3
          · exfalso
            simp only [runSteps, stepExec_char, hres, if_pos hz] at hmem
            rcases List.mem_cons.mp hmem with heq | hmem3
            · exact hne (by injection heq)
            · rcases List.mem_append.mp hmem3 with h4 | h4
              · rcases List.mem_map.mp h4 with ⟨x, _, hx⟩
                exact Event.noConfusion hx
              · simp at h4
      have harith : i + 1 + j2 = i + (j2 + 1) := by omega
      have hih := ih (i + 1) j2 s hg2 (by rw [harith]; exact hmem2)
      rw [harith] at hih
      have hout0 : stepOutcome s0 = .ok 0 := by
        cases hso : stepOutcome s0 with
        | fault =>
          exfalso
          have hres : stepResOf s0 = .raised := by simp [stepResOf, hso]
          simp only [runSteps, stepExec_char, hres] at hmem
          rcases List.mem_cons.mp hmem with heq | hmem3
          · exact hne (by injection heq)
          · rcases List.mem_append.mp (by
              simpa using hmem3 : Event.inst (i + (j2 + 1))
                ∈ (specHookSeq s0).map (fun h => Event.call i h)
                  ++ [Event.kill i (killFlag s0)]) with h4 | h4
            · rcases List.mem_map.mp h4 with ⟨x, _, hx⟩
              exact Event.noConfusion hx
            · simp at h4
        | ok c =>
          by_cases hz : c = 0
          · subst hz; rfl
          · exfalso
            have hres : stepResOf s0 = .done c := by simp [stepResOf, hso]
            simp only [runSteps, stepExec_char, hres, if_pos hz] at hmem
            rcases List.mem_cons.mp hmem with heq | hmem3
            · exact hne (by injection heq)
            · rcases List.mem_append.mp hmem3 with h4 | h4
              · rcases List.mem_map.mp h4 with ⟨x, _, hx⟩
                exact Event.noConfusion hx
              · simp at h4
      have hres0 : stepResOf s0 = .done 0 := by simp [stepResOf, hout0]
      constructor
      · simp only [runSteps, stepExec_char, hres0, ne_eq, not_true_eq_false, if_false]
        rw [List.filter_append, List.filter_cons]
        simp only [isKillOf_inst, Bool.false_eq_true, if_false]
        rw [List.filter_append, filter_killOf_map]
        have : ([Event.kill i (killFlag s0)]).filter (isKillOf (i + (j2 + 1))) = [] := by
          simp only [List.filter_cons, List.filter_nil, isKillOf_kill]
          rw [if_neg (by simp only [decide_eq_true_eq]; omega)]
        rw [this]
        simpa using hih.1
      · intro hf
        have := hih.2 hf
        simp only [runSteps, stepExec_char, hres0, ne_eq, not_true_eq_false, if_false]
        exact this

/-! ## Parser lemmas -/

theorem lookupKey_nil (k : String) : lookupKey [] k = none := rfl

theorem lookupKey_cons (k0 : String) (v0 : PVal) (m : List (String × PVal)) (k : String) :
    lookupKey ((k0, v0) :: m) k = if k0 = k then some v0 else lookupKey m k := by
  simp only [lookupKey, List.find?_cons]
  by_cases h : k0 = k <;> simp [h]

theorem lookupKey_append_single (m : List (String × PVal)) (k k2 : String) (v : PVal) :
    lookupKey (m ++ [(k, v)]) k2
      = match lookupKey m k2 with
        | some w => some w
        | none => if k = k2 then some v else none := by
  induction m with
  | nil => simp [lookupKey_nil, lookupKey_cons]
  | cons p m ih =>
    rcases p with ⟨k0, v0⟩
    rw [List.cons_append, lookupKey_cons, lookupKey_cons]
    by_cases h : k0 = k2 <;> simp [h, ih]

theorem lookupKey_append_found (m : List (String × PVal)) (k k2 : String) (v w : PVal)
    (hl : lookupKey m k2 = some w) : lookupKey (m ++ [(k, v)]) k2 = some w := by
  rw [lookupKey_append_single, hl]

theorem lookupKey_append_new (m : List (String × PVal)) (k k2 : String) (v : PVal)
    (hl : lookupKey m k2 = none) :
    lookupKey (m ++ [(k, v)]) k2 = if k = k2 then some v else none := by
  rw [lookupKey_append_single, hl]

theorem lookupKey_updateKey_self (m : List (String × PVal)) (k : String) (nv : PVal)
    (h : (lookupKey m k).isSome = true) :
    lookupKey (updateKey m k nv) k = some nv := by
  induction m with
  | nil => simp [lookupKey_nil] at h
  | cons p m ih =>
    rcases p with ⟨k0, v0⟩
    simp only [updateKey]
    by_cases h0 : k0 = k
    · rw [if_pos h0, lookupKey_cons, if_pos h0]
    · rw [if_neg h0, lookupKey_cons, if_neg h0]
      rw [lookupKey_cons, if_neg h0] at h
      exact ih h

theorem lookupKey_updateKey_other (m : List (String × PVal)) (k k2 : String) (nv : PVal)
    (h : k ≠ k2) : lookupKey (updateKey m k nv) k2 = lookupKey m k2 := by
  induction m with
  | nil => simp [updateKey]
  | cons p m ih =>
    rcases p with ⟨k0, v0⟩
    simp only [updateKey]
    by_cases h0 : k0 = k
    · subst h0
      rw [if_pos rfl, lookupKey_cons, lookupKey_cons, if_neg h, if_neg h]
    · rw [if_neg h0, lookupKey_cons, lookupKey_cons, ih]

theorem hasKey_setPlugin (m : List (String × PVal)) :
    hasKey (setPlugin m) "__plugin__" = true := by
  unfold setPlugin
  by_cases h : hasKey m "__plugin__"
  · rw [if_pos h]
    unfold hasKey at *
    rw [lookupKey_updateKey_self m _ _ h]
    rfl
  · rw [if_neg h]
    unfold hasKey at *
    rw [lookupKey_append_single]
    rcases hl : lookupKey m "__plugin__" with _ | w
    · simp
    · rw [hl] at h; simp at h

theorem lookupKey_setPlugin_other (m : List (String × PVal)) (k : String)
    (hk : k ≠ "__plugin__") : lookupKey (setPlugin m) k = lookupKey m k := by
  unfold setPlugin
  by_cases h : hasKey m "__plugin__"
  · rw [if_pos h, lookupKey_updateKey_other]
    exact fun h2 => hk h2.symm
  · rw [if_neg h, lookupKey_append_single]
    rcases hl : lookupKey m k with _ | w
    · rw [if_neg (fun h2 => hk h2.symm)]
    · rfl

theorem valuesFor_cons (k k0 : String) (v : PVal) (ps : List (String × PVal)) :
    valuesFor k ((k0, v) :: ps)
      = if k0 = k then v :: valuesFor k ps else valuesFor k ps := by
  by_cases h : k0 = k <;> simp [valuesFor, List.filterMap_cons, h]

theorem accumulate_cons_found (k0 : String) (v oldv : PVal)
    (ps : List (String × PVal)) (m : List (String × PVal))
    (hl : lookupKey m k0 = some oldv) :
    accumulate ((k0, v) :: ps) m
      = match mergeValue oldv v with
        | none => none
        | some nv => accumulate ps (updateKey m k0 nv) := by
  simp only [accumulate, hl]

theorem accumulate_cons_new (k0 : String) (v : PVal)
    (ps : List (String × PVal)) (m : List (String × PVal))
    (hl : lookupKey m k0 = none) :
    accumulate ((k0, v) :: ps) m = accumulate ps (m ++ [(k0, v)]) := by
  simp only [accumulate, hl]

theorem accumulate_lookup (ps : List (String × PVal)) :
    ∀ m m2, accumulate ps m = some m2 →
      ∀ k, foldKey (lookupKey m k) (valuesFor k ps) = some (lookupKey m2 k) := by
  induction ps with
  | nil =>
    intro m m2 h k
    have hm : m = m2 := by simpa [accumulate] using h
    subst hm
    cases lookupKey m k <;> simp [valuesFor, foldKey]
  | cons p ps ih =>
    rcases p with ⟨k0, v⟩
    intro m m2 h k
    rw [valuesFor_cons]
    cases hl : lookupKey m k0 with
    | some oldv =>
      rw [accumulate_cons_found k0 v oldv ps m hl] at h
      cases hm : mergeValue oldv v with
      | none => rw [hm] at h; exact absurd h (by simp)
      | some nv =>
        rw [hm] at h
        have hrec := ih _ _ h
        by_cases hk : k0 = k
        · subst hk
          rw [if_pos rfl, hl]
          simp only [foldKey, hm]
          have := hrec k0
          rw [lookupKey_updateKey_self _ _ _ (by simp [hl])] at this
          exact this
        · rw [if_neg hk]
          have := hrec k
          rw [lookupKey_updateKey_other _ _ _ _ hk] at this
          exact this
    | none =>
      rw [accumulate_cons_new k0 v ps m hl] at h
      have hrec := ih _ _ h
      by_cases hk : k0 = k
      · subst hk
        rw [if_pos rfl, hl]
        simp only [foldKey]
        have := hrec k0
        rw [lookupKey_append_new m k0 k0 v hl, if_pos rfl] at this
        exact this
      · rw [if_neg hk]
        have := hrec k
        rcases hl2 : lookupKey m k with _ | w
        · rw [lookupKey_append_new m k0 k v hl2, if_neg hk] at this
          exact this
        · rw [lookupKey_append_found m k0 k v w hl2] at this
          exact this

theorem accumulate_nil_pairs (m : List (String × PVal)) : accumulate [] m = some m := rfl

/-- The scan loop is the accumulation of its accepted pairs. -/
theorem parseLoop_eq_accumulate (params : Params) (data : List String) :
    ∀ okk m, parseLoop params data okk m
      = accumulate (acceptedPairs params data okk) m := by
  induction data with
  | nil => intro okk m; rfl
  | cons line rest ih =>
    intro okk m
    simp only [parseLoop, acceptedPairs]
    cases hml : matchLine params line with
    | some kvcd =>
      rcases kvcd with ⟨k, v, cd⟩
      dsimp only
      by_cases hv : cd.verifier (cd.parser v)
      · rw [if_pos hv]
        simp only [applyEntry, if_pos hv, List.cons_append, List.nil_append]
        cases hl : lookupKey m k with
        | some oldv =>
          rw [accumulate_cons_found k (cd.parser v) oldv _ m hl]
          cases hm : mergeValue oldv (cd.parser v) with
          | none => simp [hm]
          | some nv => simp [hm, ih]
        | none =>
          rw [accumulate_cons_new k (cd.parser v) _ m hl]
          simp [hl, ih]
      · rw [if_neg hv]
        simp only [applyEntry, if_neg hv, List.nil_append]
        exact ih (some k) m
    | none =>
      dsimp only
      cases okk with
      | some k =>
        dsimp only
        by_cases hv0 : pyStrip line = ""
        · simp only [hv0, if_pos rfl]
          exact ih (some k) m
        · simp only [if_neg hv0]
          cases hlp : lookupP params k with
          | none => exact ih (some k) m
          | some cd =>
            dsimp only
            by_cases hv : cd.verifier (cd.parser (pyStrip line))
            · rw [if_pos hv]
              simp only [applyEntry, if_pos hv, List.cons_append, List.nil_append]
              cases hl : lookupKey m k with
              | some oldv =>
                rw [accumulate_cons_found k (cd.parser (pyStrip line)) oldv _ m hl]
                cases hm : mergeValue oldv (cd.parser (pyStrip line)) with
                | none => simp [hm]
                | some nv => simp [hm, ih]
              | none =>
                rw [accumulate_cons_new k (cd.parser (pyStrip line)) _ m hl]
                simp [hl, ih]
            · rw [if_neg hv]
              simp only [applyEntry, if_neg hv, List.nil_append]
              exact ih (some k) m
      | none => exact ih none m

theorem joinSpace_cons_cons (a s : String) (t : List String) :
    joinSpace (a :: s :: t) = a ++ " " ++ joinSpace (s :: t) := rfl

theorem joinSpace_merge (a s : String) (t : List String) :
    joinSpace ((a ++ " " ++ s) :: t) = a ++ " " ++ joinSpace (s :: t) := by
  cases t with
  | nil => rfl
  | cons b t =>
    rw [joinSpace_cons_cons, joinSpace_cons_cons]
    simp [String.append_assoc]

theorem foldKey_vstr (ss : List String) :
    ∀ a, foldKey (some (.vstr a)) (ss.map PVal.vstr)
      = some (some (.vstr (joinSpace (a :: ss)))) := by
  induction ss with
  | nil => intro a; rfl
  | cons s ss ih =>
    intro a
    simp only [List.map_cons, foldKey, mergeValue]
    rw [ih (a ++ " " ++ s), joinSpace_merge]
    rfl

theorem foldKey_vlist (ls : List (List String)) :
    ∀ a, foldKey (some (.vlist a)) (ls.map PVal.vlist)
      = some (some (.vlist (a ++ ls.join))) := by
  induction ls with
  | nil => intro a; simp [foldKey]
  | cons l ls ih =>
    intro a
    simp only [List.map_cons, foldKey, mergeValue]
    rw [ih (a ++ l)]
    simp [List.append_assoc]

theorem mergeValue_other (v w : PVal) (hw : isOtherVal w = true) :
    mergeValue v w = some v := by
  cases w <;> simp_all [isOtherVal, mergeValue]

theorem foldKey_other (vs : List PVal) :
    ∀ v, (∀ w ∈ vs, isOtherVal w = true) →
      foldKey (some v) vs = some (some v) := by
  induction vs with
  | nil => intro v _; rfl
  | cons w vs ih =>
    intro v h
    simp only [foldKey, mergeValue_other v w (h w (List.mem_cons_self w vs))]
    exact ih v (fun u hu => h u (List.mem_cons_of_mem _ hu))

/-! ## Claim theorems for the Spec Parser -/

/-- C3: when the scan loop completes (producing the mapping that, with the
reserved `__plugin__` entry, is the result of parsing), a vital parameter
missing from that mapping makes `parse` fail with a `SpecFileError` naming
the missing parameter and the spec file path; when every vital parameter
is present, `parse` returns the mapping, reserved entry included. -/
theorem c3_vital_parameter_validation (params : Params) (vital : List String)
    (filepath : String) (content : List String) (m : List (String × PVal))
    (hp : parseLoop params (genericParser content) none [] = some m) :
    ((∃ p ∈ vital, hasKey (setPlugin m) p = false) →
      ∃ p, specParse params vital filepath content
          = .error (.specFileError filepath p)
        ∧ p ∈ vital ∧ hasKey (setPlugin m) p = false) ∧
    ((∀ p ∈ vital, hasKey (setPlugin m) p = true) →
      specParse params vital filepath content = .ok (setPlugin m)
        ∧ hasKey (setPlugin m) "__plugin__" = true) := by
  constructor
  · rintro ⟨p0, hp0, hmiss⟩
    have hsome : (vital.find? (fun p => !(hasKey (setPlugin m) p))).isSome := by
      rw [List.find?_isSome]
      exact ⟨p0, hp0, by simp [hmiss]⟩
    rcases hfound : vital.find? (fun p => !(hasKey (setPlugin m) p)) with _ | p1
    · rw [hfound] at hsome; simp at hsome
    · refine ⟨p1, ?_, List.mem_of_find?_eq_some hfound, ?_⟩
      · simp only [specParse, hp, hfound]
      · have := List.find?_some hfound
        simpa using this
  · intro hall
    have hnone : vital.find? (fun p => !(hasKey (setPlugin m) p)) = none := by
      rw [List.find?_eq_none]
      intro p hpv
      simp [hall p hpv]
    refine ⟨?_, hasKey_setPlugin m⟩
    simp only [specParse, hp, hnone]

/-- Witness for C3: with vital parameter `a` and no recognized lines the
parse fails naming `a` and the file; with no vital parameters it returns
the mapping with the reserved entry. -/
theorem c3_vital_parameter_validation_witness :
    (∃ p, specParse [] ["a"] "file.spec" [] = .error (.specFileError "file.spec" p)
        ∧ p ∈ ["a"] ∧ hasKey (setPlugin []) p = false) ∧
    (specParse [] [] "file.spec" [] = .ok (setPlugin [])
        ∧ hasKey (setPlugin []) "__plugin__" = true) :=
  ⟨(c3_vital_parameter_validation [] ["a"] "file.spec" [] [] rfl).1
      (by decide),
    (c3_vital_parameter_validation [] [] "file.spec" [] [] rfl).2
      (by decide)⟩

/-- C4: for a key accepted more than once, the parse result holds the
space-joined concatenation when all accepted values are strings, the
element-wise list concatenation when all are lists, and the first value
when every later accepted value has any other type (those repetitions are
silently dropped).  The reserved `__plugin__` entry is set aside. -/
theorem c4_repeated_key_accumulation (params : Params) (vital : List String)
    (filepath : String) (content : List String) (k : String)
    (m2 : List (String × PVal))
    (hok : specParse params vital filepath content = .ok m2)
    (hk : k ≠ "__plugin__") :
    (∀ ss : List String, ss ≠ [] →
      valuesFor k (acceptedPairs params (genericParser content) none)
          = ss.map PVal.vstr →
      lookupKey m2 k = some (.vstr (joinSpace ss))) ∧
    (∀ ls : List (List String), ls ≠ [] →
      valuesFor k (acceptedPairs params (genericParser content) none)
          = ls.map PVal.vlist →
      lookupKey m2 k = some (.vlist ls.join)) ∧
    (∀ (v : PVal) (tl : List PVal),
      valuesFor k (acceptedPairs params (genericParser content) none) = v :: tl →
      (∀ w ∈ tl, isOtherVal w = true) →
      lookupKey m2 k = some v) := by
  obtain ⟨m, hp, hm2⟩ : ∃ m, parseLoop params (genericParser content) none [] = some m
      ∧ m2 = setPlugin m := by
    simp only [specParse] at hok
    rcases hpl : parseLoop params (genericParser content) none [] with _ | m
    · rw [hpl] at hok
      simp at hok
    · rw [hpl] at hok
      dsimp only at hok
      rcases hf : (vital.find? (fun p => !(hasKey (setPlugin m) p))) with _ | p
      · rw [hf] at hok
        simp only [Except.ok.injEq] at hok
        exact ⟨m, rfl, hok.symm⟩
      · rw [hf] at hok
        simp at hok
  have hacc : accumulate (acceptedPairs params (genericParser content) none) [] = some m := by
    rw [← parseLoop_eq_accumulate]
    exact hp
  have hfold := accumulate_lookup _ _ _ hacc k
  rw [lookupKey_nil] at hfold
  have hm2k : lookupKey m2 k = lookupKey m k := by
    rw [hm2]; exact lookupKey_setPlugin_other m k hk
  refine ⟨?_, ?_, ?_⟩
  · rintro ⟨⟩ hne hvals
    · exact absurd rfl hne
    · rename_i s ss
      rw [hvals] at hfold
      simp only [List.map_cons, foldKey] at hfold
      rw [foldKey_vstr ss s] at hfold
      rw [hm2k, ← Option.some_inj.mp hfold]
  · rintro ⟨⟩ hne hvals
    · exact absurd rfl hne
    · rename_i l ls
      rw [hvals] at hfold
      simp only [List.map_cons, foldKey] at hfold
      rw [foldKey_vlist ls l] at hfold
      rw [hm2k, ← Option.some_inj.mp hfold]
      simp
  · intro v tl hvals hother
    rw [hvals] at hfold
    simp only [foldKey] at hfold
    rw [foldKey_other tl v hother] at hfold
    rw [hm2k, ← Option.some_inj.mp hfold]

/-- Witness for C4: a string key repeated twice space-joins, a list key
concatenates, and an integer key keeps its first value. -/
theorem c4_repeated_key_accumulation_witness :
    (lookupKey [("k", PVal.vstr "a b"), ("__plugin__", PVal.vplugin)] "k"
        = some (.vstr (joinSpace ["a", "b"]))) ∧
    (lookupKey [("l", PVal.vlist ["a", "b"]), ("__plugin__", PVal.vplugin)] "l"
        = some (.vlist ([["a"], ["b"]] : List (List String)).join)) ∧
    (lookupKey [("n", PVal.vint 7), ("__plugin__", PVal.vplugin)] "n"
        = some (.vint 7)) :=
  ⟨(c4_repeated_key_accumulation
        [("k", ⟨fun s => PVal.vstr s, fun _ => true⟩)] [] "f" ["k: a", "k: b"] "k"
        [("k", PVal.vstr "a b"), ("__plugin__", PVal.vplugin)]
        (by rfl) (by decide)).1 ["a", "b"] (by decide) (by rfl),
    (c4_repeated_key_accumulation
        [("l", ⟨fun s => PVal.vlist [s], fun _ => true⟩)] [] "f" ["l: a", "l: b"] "l"
        [("l", PVal.vlist ["a", "b"]), ("__plugin__", PVal.vplugin)]
        (by rfl) (by decide)).2.1 [["a"], ["b"]] (by decide) (by rfl),
    (c4_repeated_key_accumulation
        [("n", ⟨fun _ => PVal.vint 7, fun _ => true⟩)] [] "f" ["n: a", "n: b"] "n"
        [("n", PVal.vint 7), ("__plugin__", PVal.vplugin)]
        (by rfl) (by decide)).2.2 (PVal.vint 7) [PVal.vint 7] (by rfl) (by decide)⟩

theorem matchLine_lookup {params : Params} {line : String} {k v : String}
    {cd : SchemaEntry} (h : matchLine params line = some (k, v, cd)) :
    lookupP params k = some cd := by
  unfold matchLine at h
  rcases hpls : parse_line_statement line with _ | kv
  · rw [hpls] at h; exact absurd h (by simp)
  · rw [hpls] at h
    rcases kv with ⟨k0, v0⟩
    dsimp only at h
    rcases hlp : lookupP params k0 with _ | cd0
    · rw [hlp] at h; exact absurd h (by simp)
    · rw [hlp] at h
      dsimp only at h
      obtain ⟨rfl, _, rfl⟩ : k0 = k ∧ v0 = v ∧ cd0 = cd := by
        have := Option.some_inj.mp h
        exact ⟨congrArg Prod.fst this,
          congrArg Prod.fst (congrArg Prod.snd this),
          congrArg Prod.snd (congrArg Prod.snd this)⟩
      exact hlp

/-- C7 amended, claim side: the pairs the engine keeps are exactly the
resolved pairs whose parsed value the verifier accepts — the verifier is
consulted on every parser output, the sentinel included. -/
theorem c7_parser_verifier_pipeline_amended (params : Params) (data : List String) :
    ∀ okk, acceptedPairs params data okk
      = (resolvedPairs params data okk).filterMap (fun p =>
          match lookupP params p.1 with
          | none => none
          | some cd =>
            if cd.verifier (cd.parser p.2) then some (p.1, cd.parser p.2)
            else none) := by
  induction data with
  | nil => intro okk; rfl
  | cons line rest ih =>
    intro okk
    simp only [acceptedPairs, resolvedPairs]
    cases hml : matchLine params line with
    | some kvcd =>
      rcases kvcd with ⟨k, v, cd⟩
      dsimp only
      rw [List.filterMap_cons]
      rw [matchLine_lookup hml]
      dsimp only
      by_cases hv : cd.verifier (cd.parser v)
      · rw [if_pos hv, if_pos hv, ih (some k)]
        rfl
      · rw [if_neg hv, if_neg hv, ih (some k)]
        rfl
    | none =>
      dsimp only
      cases okk with
      | some k =>
        dsimp only
        by_cases hv0 : pyStrip line = ""
        · rw [if_pos hv0, if_pos hv0]
          exact ih (some k)
        · rw [if_neg hv0, if_neg hv0]
          rcases hlp : lookupP params k with _ | cd
          · exact ih (some k)
          · dsimp only
            rw [List.filterMap_cons, hlp]
            dsimp only
            by_cases hv : cd.verifier (cd.parser (pyStrip line))
            · rw [if_pos hv, if_pos hv, ih (some k)]
              rfl
            · rw [if_neg hv, if_neg hv, ih (some k)]
              rfl
      | none => exact ih none

/-- C7 counterexample: the engine has no sentinel short-circuit.  With a
parser that always returns the sentinel (`None`) and a verifier that
accepts everything, the pair survives into the result mapping, while the
claim says a sentinel-producing pair is discarded without consulting the
verifier. -/
theorem c7_sentinel_counterexample :
    specParse [("k", ⟨fun _ => PVal.vnone, fun _ => true⟩)] [] "f" ["k: x"]
        = .ok [("k", PVal.vnone), ("__plugin__", PVal.vplugin)]
    ∧ lookupKey [("k", PVal.vnone), ("__plugin__", PVal.vplugin)] "k"
        = some PVal.vnone := ⟨rfl, rfl⟩

theorem resolvedPairs_eq_claimAmended_aux (params : Params) (data : List String) :
    ∀ okk, (∀ k, okk = some k → (lookupP params k).isSome = true) →
      resolvedPairs params data okk = claimResolvedPairsAmended params data okk := by
  induction data with
  | nil => intro okk _; rfl
  | cons line rest ih =>
    intro okk hinv
    simp only [resolvedPairs, claimResolvedPairsAmended]
    cases hml : matchLine params line with
    | some kvcd =>
      rcases kvcd with ⟨k, v, cd⟩
      dsimp only
      rw [ih (some k) (fun k2 hk2 => by
        obtain rfl : k = k2 := by simpa using hk2
        simp [matchLine_lookup hml])]
    | none =>
      dsimp only
      cases okk with
      | some k =>
        dsimp only
        by_cases hv0 : pyStrip line = ""
        · rw [if_pos hv0, if_pos hv0]
          exact ih (some k) hinv
        · rw [if_neg hv0, if_neg hv0]
          rcases hlp : lookupP params k with _ | cd
          · exact absurd (hinv k rfl) (by simp [hlp])
          · dsimp only
            rw [ih (some k) hinv]
      | none => exact ih none (by simp)

/-- C8 amended: the scan resolves each generic line as the claim says —
new current key on a schema match, whole stripped line as continuation
payload when a current key is active, silently ignored otherwise — with
the single correction that an empty-after-stripping continuation line is
skipped (leaving the current key active) instead of contributing an empty
payload. -/
theorem c8_line_resolution_amended (params : Params) (data : List String) :
    resolvedPairs params data none = claimResolvedPairsAmended params data none :=
  resolvedPairs_eq_claimAmended_aux params data none (by simp)

/-- C8 counterexample: a raw line such as `" #c"` survives comment
filtering as the empty generic line, and with a current key active the
code skips it (`if not value: continue`) while the claim's scan treats it
as a continuation payload; with an accept-everything schema the two
disagree, and the parse result holds `"a"` rather than the claim's
space-merged `"a "`. -/
theorem c8_empty_continuation_counterexample :
    genericParser ["k: a", " #c"] = ["k: a", ""]
    ∧ resolvedPairs [("k", ⟨fun s => PVal.vstr s, fun _ => true⟩)]
        ["k: a", ""] none = [("k", "a")]
    ∧ claimResolvedPairs [("k", ⟨fun s => PVal.vstr s, fun _ => true⟩)]
        ["k: a", ""] none = [("k", "a"), ("k", "")]
    ∧ resolvedPairs [("k", ⟨fun s => PVal.vstr s, fun _ => true⟩)] ["k: a", ""] none
        ≠ claimResolvedPairs [("k", ⟨fun s => PVal.vstr s, fun _ => true⟩)]
            ["k: a", ""] none
    ∧ specParse [("k", ⟨fun s => PVal.vstr s, fun _ => true⟩)] [] "f" ["k: a", " #c"]
        = .ok [("k", PVal.vstr "a"), ("__plugin__", PVal.vplugin)] :=
  ⟨rfl, rfl, rfl, by decide, rfl⟩

theorem splitOnceL_append_single (sep c : Char) (l : List Char) :
    splitOnceL sep (l ++ [c])
      = match splitOnceL sep l with
        | some (a, b) => some (a, b ++ [c])
        | none => if c = sep then some (l, []) else none := by
  induction l with
  | nil =>
    simp only [List.nil_append, splitOnceL]
    by_cases h : c = sep <;> simp [h, splitOnceL]
  | cons d l ih =>
    by_cases hd : d = sep
    · simp [splitOnceL, hd]
    · simp only [List.cons_append, splitOnceL, List.append_eq, if_neg hd, ih]
      rcases hs : splitOnceL sep l with _ | ab
      · by_cases h : c = sep <;> simp [h]
      · rcases ab with ⟨a, b⟩
        simp

theorem splitOnceL_eq_none_iff (sep : Char) (l : List Char) :
    splitOnceL sep l = none ↔ sep ∉ l := by
  induction l with
  | nil => simp [splitOnceL]
  | cons c l ih =>
    by_cases h : c = sep
    · simp [splitOnceL, h]
    · simp only [splitOnceL, if_neg h, List.mem_cons]
      rcases hs : splitOnceL sep l with _ | ab
      · have hnl := ih.mp hs
        simp only [Option.map_none', true_iff]
        rintro (rfl | hm)
        · exact h rfl
        · exact hnl hm
      · simp only [Option.map_some']
        constructor
        · intro h2; exact absurd h2 (by simp)
        · intro h2
          exfalso
          have hnotin : sep ∉ l := fun hm => h2 (Or.inr hm)
          rw [← ih, hs] at hnotin
          exact Option.noConfusion hnotin

theorem cutAfterLastHash_no_hash (l : List Char) (h : '#' ∉ l) :
    cutAfterLastHash l = l := by
  induction l with
  | nil => rfl
  | cons c cs ih =>
    simp only [List.mem_cons] at h
    push_neg at h
    have hcne : ¬(c = '#') := fun hc => h.1 hc.symm
    simp only [cutAfterLastHash, if_neg hcne]
    rw [ih h.2]

theorem rsplitOnceHeadL_eq_cutAfterLastHash (l : List Char) :
    rsplitOnceHeadL '#' l = cutAfterLastHash l := by
  induction l with
  | nil => rfl
  | cons c cs ih =>
    unfold rsplitOnceHeadL at *
    rw [show (c :: cs).reverse = cs.reverse ++ [c] from by simp]
    rw [splitOnceL_append_single]
    rcases hs : splitOnceL '#' cs.reverse with _ | ab
    · have hno : '#' ∉ cs := by
        have := (splitOnceL_eq_none_iff '#' cs.reverse).mp hs
        simpa using this
      by_cases hc : c = '#'
      · subst hc
        rw [if_pos rfl]
        simp [cutAfterLastHash, hno]
      · rw [if_neg hc]
        simp only [cutAfterLastHash, if_neg hc]
        rw [cutAfterLastHash_no_hash cs hno]
    · rcases ab with ⟨a, b⟩
      have hyes : '#' ∈ cs := by
        by_contra hno
        have hsn : splitOnceL '#' cs.reverse = none := by
          rw [splitOnceL_eq_none_iff]
          simpa using hno
        rw [hs] at hsn
        exact Option.noConfusion hsn
      dsimp only
      rw [hs] at ih
      dsimp only at ih
      simp only [cutAfterLastHash]
      by_cases hc : c = '#'
      · subst hc
        rw [if_pos rfl, if_pos hyes, ← ih]
        simp
      · rw [if_neg hc, ← ih]
        simp

/-- C6 amended: `_generic_parser` computes the amended claim's line set. -/
theorem c6_generic_lines_amended (content : List String) :
    genericParser content = claimGenericAmended content := by
  unfold genericParser claimGenericAmended
  have : ∀ x : String, pyStrip (pyRsplitHashHead (pyStrip x))
      = pyStrip ⟨cutAfterLastHash (pyStrip x).data⟩ := by
    intro x
    unfold pyRsplitHashHead
    rw [rsplitOnceHeadL_eq_cutAfterLastHash]
  simp only [this]

/-- C6 counterexample: on `"k: v # one # two"` the code cuts at the last
`#` (keeping `"k: v # one"`), while the claim's first-unescaped-`#` rule
would keep only `"k: v"`. -/
theorem c6_trailing_comment_counterexample :
    genericParser ["k: v # one # two"] = ["k: v # one"]
    ∧ claimGenericOrig ["k: v # one # two"] = ["k: v"]
    ∧ genericParser ["k: v # one # two"]
        ≠ claimGenericOrig ["k: v # one # two"] :=
  ⟨rfl, rfl, by decide⟩

/-! ## Preprocessor lemmas -/

theorem splitOnceL_some_append {sep : Char} {l a b : List Char}
    (h : splitOnceL sep l = some (a, b)) : l = a ++ sep :: b := by
  induction l generalizing a b with
  | nil => exact absurd h (by simp [splitOnceL])
  | cons c cs ih =>
    simp only [splitOnceL] at h
    by_cases hc : c = sep
    · rw [if_pos hc] at h
      obtain ⟨rfl, rfl⟩ : [] = a ∧ cs = b := by
        have := Option.some_inj.mp h
        exact ⟨congrArg Prod.fst this, congrArg Prod.snd this⟩
      simp [hc]
    · rw [if_neg hc] at h
      rcases hs : splitOnceL sep cs with _ | p
      · rw [hs] at h; exact absurd h (by simp)
      · rw [hs] at h
        rcases p with ⟨a2, b2⟩
        simp only [Option.map_some'] at h
        obtain ⟨rfl, rfl⟩ : c :: a2 = a ∧ b2 = b := by
          have := Option.some_inj.mp h
          exact ⟨congrArg Prod.fst this, congrArg Prod.snd this⟩
        rw [ih hs]
        simp

theorem firstTok_percent {l t : String} (ht : firstTok l = t)
    (hc : t.data.head? = some '%') : pyStartsWith (pyLStrip l) "%" = true := by
  unfold firstTok pySplit1 at ht
  rcases hs : splitOnceL ' ' (pyLStrip l).data with _ | p
  · rw [hs] at ht
    dsimp only at ht
    subst ht
    rcases hd : (pyLStrip l).data with _ | ⟨c, cs⟩
    · rw [hd] at hc; simp at hc
    · rw [hd] at hc
      simp only [List.head?_cons, Option.some_inj] at hc
      subst hc
      simp [pyStartsWith, hd, List.isPrefixOf]
  · rw [hs] at ht
    rcases p with ⟨a, b⟩
    dsimp only at ht
    have hl := splitOnceL_some_append hs
    rcases ha : a with _ | ⟨c, cs⟩
    · rw [← ht] at hc
      rw [ha] at hc
      simp at hc
    · rw [← ht] at hc
      rw [ha] at hc
      simp only [List.head?_cons, Option.some_inj] at hc
      subst hc
      rw [ha] at hl
      simp [pyStartsWith, hl, List.isPrefixOf]

theorem directiveFreeLine_of_not_percent {l : String}
    (h : ¬ pyStartsWith (pyLStrip l) "%" = true) : directiveFreeLine l = true := by
  unfold directiveFreeLine
  simp only [Bool.and_eq_true, decide_eq_true_eq, ne_eq]
  constructor
  · intro ht
    exact h (firstTok_percent ht (by decide))
  · intro ht
    exact h (firstTok_percent ht (by decide))

theorem builtinExpand_plain (fs : FS) (root : String)
    (envF : String → Option (Except PreErr String)) (fuel : Nat) (line : String)
    (h : directiveFreeLine line = true) :
    builtinExpand fs root envF (fuel + 1) line = some (.ok line) := by
  unfold directiveFreeLine at h
  simp only [Bool.and_eq_true, decide_eq_true_eq, ne_eq] at h
  simp [builtinExpand, expandLayer, h.1, h.2]

theorem expandList_plain (fs : FS) (root : String)
    (envF : String → Option (Except PreErr String)) (fuel : Nat)
    (lines : List String) (h : ∀ l ∈ lines, directiveFreeLine l = true) :
    expandList (builtinExpand fs root envF (fuel + 1)) lines
      = some (.ok (concatAll lines)) := by
  induction lines with
  | nil => rfl
  | cons l ls ih =>
    simp only [expandList,
      builtinExpand_plain fs root envF fuel l (h l (List.mem_cons_self l ls)),
      ih (fun u hu => h u (List.mem_cons_of_mem _ hu))]
    rfl

theorem expandEach_plain (fs : FS) (root : String)
    (envF : String → Option (Except PreErr String)) (fuel : Nat)
    (lines : List String) (h : ∀ l ∈ lines, directiveFreeLine l = true) :
    expandEach (builtinExpand fs root envF (fuel + 1)) lines
      = some (.ok lines) := by
  induction lines with
  | nil => rfl
  | cons l ls ih =>
    simp only [expandEach,
      builtinExpand_plain fs root envF fuel l (h l (List.mem_cons_self l ls)),
      ih (fun u hu => h u (List.mem_cons_of_mem _ hu))]

theorem userPass_empty (lines : List String) : userPass [] lines = .ok lines := by
  induction lines with
  | nil => rfl
  | cons l ls ih =>
    simp only [userPass, userApply, List.find?_nil, Option.map_none', ih]

theorem builtinExpand_import_found (fs : FS) (root : String)
    (envF : String → Option (Except PreErr String)) (fuel : Nat)
    (line rest0 content : String)
    (htok : firstTok line = "%import")
    (hrest : (pySplit1 ' ' line).2 = some rest0)
    (hne : pyStrip rest0 ≠ "")
    (hfs : fsLookup fs (resolveImportPath root (pyStrip rest0)) = some content) :
    builtinExpand fs root envF (fuel + 1) line
      = expandList (builtinExpand fs root envF fuel) (pyReadlines content) := by
  simp [builtinExpand, expandLayer, htok, hrest, hne, hfs]

theorem builtinExpand_import_missing (fs : FS) (root : String)
    (envF : String → Option (Except PreErr String)) (fuel : Nat)
    (line rest0 : String)
    (htok : firstTok line = "%import")
    (hrest : (pySplit1 ' ' line).2 = some rest0)
    (hne : pyStrip rest0 ≠ "")
    (hfs : fsLookup fs (resolveImportPath root (pyStrip rest0)) = none) :
    builtinExpand fs root envF (fuel + 1) line = some (.error .preprocessorError) := by
  simp [builtinExpand, expandLayer, htok, hrest, hne, hfs]

/-! ## Claim theorems for the Macro Preprocessor -/

/-- C9 amended: for every input text in which no line begins with the `%`
prefix even after stripping leading whitespace, the preprocessor's parse
returns the text unchanged (as its newline-split line list, which joined
with newlines is the original text). -/
theorem c9_identity_amended (fs : FS) (root T : String)
    (envF : String → Option (Except PreErr String)) (fuel : Nat)
    (hroot : fsLookup fs root = some T)
    (hnp : ∀ l ∈ pyReadlines T, ¬ pyStartsWith (pyLStrip l) "%" = true) :
    preprocParse fs root envF [] (fuel + 1) = some (.ok (pySplitNl T))
    ∧ nlIntercalate (pySplitNl T) = T := by
  refine ⟨?_, nlIntercalate_pySplitNl T⟩
  unfold preprocParse
  rw [hroot]
  dsimp only
  rw [expandEach_plain fs root envF fuel (pyReadlines T)
    (fun l hl => directiveFreeLine_of_not_percent (hnp l hl))]
  dsimp only
  rw [userPass_empty]
  dsimp only
  rw [concatAll_pyReadlines]

/-- Witness for the amended C9 at a concrete two-line text. -/
theorem c9_identity_amended_witness :
    preprocParse [("/r.spec", "a: b\nc\n")] "/r.spec" envStub [] 3
      = some (.ok (pySplitNl "a: b\nc\n"))
    ∧ nlIntercalate (pySplitNl "a: b\nc\n") = "a: b\nc\n" :=
  c9_identity_amended [("/r.spec", "a: b\nc\n")] "/r.spec" "a: b\nc\n" envStub 2
    rfl (by decide)

/-- C9 counterexample: the directive dispatch left-strips each line, so
the text `" %import x\n"` — none of whose lines begins with `%` — is not
returned unchanged: its single line is treated as an `%import` whose
mangled target does not exist, and parse aborts with a preprocessing
error. -/
theorem c9_whitespace_directive_counterexample :
    ((pyReadlines " %import x\n").all (fun l => !(pyStartsWith l "%"))) = true
    ∧ preprocParse [("/r.spec", " %import x\n")] "/r.spec" envStub [] 5
        = some (.error .preprocessorError)
    ∧ preprocParse [("/r.spec", " %import x\n")] "/r.spec" envStub [] 5
        ≠ some (.ok (pySplitNl " %import x\n")) :=
  ⟨by decide, by decide, by decide⟩

theorem strAppendEmpty (s : String) : s ++ "" = s := strExt (by simp)

/-- C5 amended: a relative `%import` target always resolves against the
directory of the preprocessor's top-level spec file — also for an import
directive inside an imported file; an absolute target is used as-is; a
missing target aborts the whole parse with a preprocessing error; an
existing target's content is recursively expanded in place, so in the
chain A imports B imports C (C resolved against A's directory) all of C's
content appears fully expanded in A's expansion. -/
theorem c5_import_resolution_amended (cC : String) (fuel : Nat)
    (hdf : ∀ l ∈ pyReadlines cC, directiveFreeLine l = true) :
    preprocParse (fsChainA cC) "/a/root.spec" envStub [] (fuel + 3)
        = some (.ok (pySplitNl cC))
    ∧ preprocParse fsChainMissing "/a/root.spec" envStub [] (fuel + 3)
        = some (.error .preprocessorError)
    ∧ preprocParse (fsAbs cC) "/r.spec" envStub [] (fuel + 3)
        = some (.ok (pySplitNl cC)) := by
  refine ⟨?_, ?_, ?_⟩
  · have h2 : builtinExpand (fsChainA cC) "/a/root.spec" envStub (fuel + 2)
        "%import c.spec\n" = some (.ok cC) := by
      rw [show fuel + 2 = (fuel + 1) + 1 from rfl]
      rw [builtinExpand_import_found (fsChainA cC) "/a/root.spec" envStub (fuel + 1)
        "%import c.spec\n" "c.spec\n" cC (by decide) (by decide) (by decide) rfl]
      rw [show (fuel + 1 : Nat) = fuel + 1 from rfl,
        expandList_plain (fsChainA cC) "/a/root.spec" envStub fuel (pyReadlines cC) hdf,
        concatAll_pyReadlines]
    have h3 : builtinExpand (fsChainA cC) "/a/root.spec" envStub (fuel + 3)
        "%import sub/b.spec\n" = some (.ok cC) := by
      rw [show fuel + 3 = (fuel + 2) + 1 from rfl]
      rw [builtinExpand_import_found (fsChainA cC) "/a/root.spec" envStub (fuel + 2)
        "%import sub/b.spec\n" "sub/b.spec\n" "%import c.spec\n"
        (by decide) (by decide) (by decide) rfl]
      rw [show pyReadlines "%import c.spec\n" = ["%import c.spec\n"] from rfl]
      simp only [expandList, h2]
      rw [strAppendEmpty]
    unfold preprocParse
    rw [show fsLookup (fsChainA cC) "/a/root.spec" = some "%import sub/b.spec\n" from rfl]
    dsimp only
    rw [show pyReadlines "%import sub/b.spec\n" = ["%import sub/b.spec\n"] from rfl]
    simp only [expandEach, h3]
    rw [userPass_empty]
    dsimp only
    rw [show concatAll [cC] = cC ++ "" from rfl, strAppendEmpty]
  · have h2 : builtinExpand fsChainMissing "/a/root.spec" envStub (fuel + 2)
        "%import c.spec\n" = some (.error .preprocessorError) := by
      rw [show fuel + 2 = (fuel + 1) + 1 from rfl]
      exact builtinExpand_import_missing fsChainMissing "/a/root.spec" envStub (fuel + 1)
        "%import c.spec\n" "c.spec\n" (by decide) (by decide) (by decide) rfl
    have h3 : builtinExpand fsChainMissing "/a/root.spec" envStub (fuel + 3)
        "%import sub/b.spec\n" = some (.error .preprocessorError) := by
      rw [show fuel + 3 = (fuel + 2) + 1 from rfl]
      rw [builtinExpand_import_found fsChainMissing "/a/root.spec" envStub (fuel + 2)
        "%import sub/b.spec\n" "sub/b.spec\n" "%import c.spec\n"
        (by decide) (by decide) (by decide) rfl]
      rw [show pyReadlines "%import c.spec\n" = ["%import c.spec\n"] from rfl]
      simp only [expandList, h2]
    unfold preprocParse
    rw [show fsLookup fsChainMissing "/a/root.spec" = some "%import sub/b.spec\n" from rfl]
    dsimp only
    rw [show pyReadlines "%import sub/b.spec\n" = ["%import sub/b.spec\n"] from rfl]
    simp only [expandEach, h3]
  · have h3 : builtinExpand (fsAbs cC) "/r.spec" envStub (fuel + 3)
        "%import /a/c.spec\n" = some (.ok cC) := by
      rw [show fuel + 3 = (fuel + 2) + 1 from rfl]
      rw [builtinExpand_import_found (fsAbs cC) "/r.spec" envStub (fuel + 2)
        "%import /a/c.spec\n" "/a/c.spec\n" cC (by decide) (by decide) (by decide) rfl]
      rw [show fuel + 2 = (fuel + 1) + 1 from rfl,
        expandList_plain (fsAbs cC) "/r.spec" envStub (fuel + 1) (pyReadlines cC) hdf,
        concatAll_pyReadlines]
    unfold preprocParse
    rw [show fsLookup (fsAbs cC) "/r.spec" = some "%import /a/c.spec\n" from rfl]
    dsimp only
    rw [show pyReadlines "%import /a/c.spec\n" = ["%import /a/c.spec\n"] from rfl]
    simp only [expandEach, h3]
    rw [userPass_empty]
    dsimp only
    rw [show concatAll [cC] = cC ++ "" from rfl, strAppendEmpty]

/-- Witness for the amended C5 with concrete content `"hello\n"`. -/
theorem c5_import_resolution_amended_witness :
    preprocParse (fsChainA "hello\n") "/a/root.spec" envStub [] 3
        = some (.ok (pySplitNl "hello\n"))
    ∧ preprocParse fsChainMissing "/a/root.spec" envStub [] 3
        = some (.error .preprocessorError)
    ∧ preprocParse (fsAbs "hello\n") "/r.spec" envStub [] 3
        = some (.ok (pySplitNl "hello\n")) :=
  c5_import_resolution_amended "hello\n" 0 (by decide)

/-- C5 counterexample: `_import_expander` always resolves a relative
target against `os.path.dirname(self._spec_path)`, the ROOT spec file's
directory — not the importing file's directory.  With `/a/root.spec`
pulling in `sub/b.spec` and `b.spec` importing `c.spec`, the inner import
reads `/a/c.spec` (`"hello"`), not `/a/sub/c.spec` (`"sub-hello"`) as the
claim's resolution rule predicts. -/
theorem c5_relative_import_root_counterexample :
    preprocParse fsChainBoth "/a/root.spec" envStub [] 10
        = some (.ok ["hello", ""])
    ∧ preprocParse fsChainBoth "/a/root.spec" envStub [] 10
        ≠ some (.ok ["sub-hello", ""]) :=
  ⟨by decide, by decide⟩

/-! ## Claim theorems for the Step Runner -/

/-- C1: for every ordered list of steps whose hooks all return integer
status codes (no faults), `Runner.run` returns the first non-zero status
code (zero when every hook of every step returns zero), and the
instantiation/hook-call part of its event trace is exactly the spec-side
trace: each step in list order is instantiated and driven through setup,
pre_run, run, post_run, the first non-zero code cutting off that step's
remaining hooks and ending the whole trace, so no later step is ever
instantiated. -/
theorem c1_runner_first_nonzero_short_circuits (steps : List Step)
    (h : ∀ s ∈ steps, noFault s = true) :
    (Runner.run steps).1 = .done (specFirstCode steps) ∧
    (Runner.run steps).2.filter (fun e => !isKillEvent e) = specInstCallTrace 0 steps :=
  runSteps_noFault steps 0 h

/-- Witness for C1 at the spec's own example `[S1 → 0, S2 → 5, S3 → 0]`:
the runner returns 5 and S3 is never instantiated. -/
theorem c1_runner_first_nonzero_short_circuits_witness :
    ((Runner.run [⟨.ok 0, .ok 0, .ok 0, .ok 0⟩, ⟨.ok 0, .ok 0, .ok 5, .ok 0⟩,
        ⟨.ok 0, .ok 0, .ok 0, .ok 0⟩]).1
      = .done (specFirstCode [⟨.ok 0, .ok 0, .ok 0, .ok 0⟩,
        ⟨.ok 0, .ok 0, .ok 5, .ok 0⟩, ⟨.ok 0, .ok 0, .ok 0, .ok 0⟩]) ∧
    (Runner.run [⟨.ok 0, .ok 0, .ok 0, .ok 0⟩, ⟨.ok 0, .ok 0, .ok 5, .ok 0⟩,
        ⟨.ok 0, .ok 0, .ok 0, .ok 0⟩]).2.filter (fun e => !isKillEvent e)
      = specInstCallTrace 0 [⟨.ok 0, .ok 0, .ok 0, .ok 0⟩,
        ⟨.ok 0, .ok 0, .ok 5, .ok 0⟩, ⟨.ok 0, .ok 0, .ok 0, .ok 0⟩]) ∧
    specFirstCode [⟨.ok 0, .ok 0, .ok 0, .ok 0⟩, ⟨.ok 0, .ok 0, .ok 5, .ok 0⟩,
        ⟨.ok 0, .ok 0, .ok 0, .ok 0⟩] = 5 ∧
    Event.inst 2 ∉ (Runner.run [⟨.ok 0, .ok 0, .ok 0, .ok 0⟩,
        ⟨.ok 0, .ok 0, .ok 5, .ok 0⟩, ⟨.ok 0, .ok 0, .ok 0, .ok 0⟩]).2 :=
  ⟨c1_runner_first_nonzero_short_circuits
      [⟨.ok 0, .ok 0, .ok 0, .ok 0⟩, ⟨.ok 0, .ok 0, .ok 5, .ok 0⟩,
        ⟨.ok 0, .ok 0, .ok 0, .ok 0⟩] (by decide),
    by decide, by decide⟩

/-- C2: a step body whose hooks fault invokes the teardown hook `kill`
with `success = false` as its very last event before the fault propagates
(also through the surrounding step loop), and on non-fault paths the one
`kill` event of the step body carries `success = true` exactly when the
step's status code is zero. -/
theorem c2_teardown_called_on_fault (i : Nat) (s : Step) (steps : List Step) :
    (stepOutcome s = .fault →
      (stepExec i s).1 = .raised ∧
      (stepExec i s).2.getLast? = some (.kill i false)) ∧
    (∀ c : Int, stepOutcome s = .ok c →
      (stepExec i s).2.filter isKillEvent = [.kill i (decide (c = 0))]) ∧
    ((runSteps 0 steps).1 = .raised →
      ∃ j, (runSteps 0 steps).2.getLast? = some (.kill j false)) := by
  refine ⟨fun hf => ?_, fun c hc => ?_, fun hr => runSteps_raised_last steps 0 hr⟩
  · have hres : stepResOf s = .raised := by simp [stepResOf, hf]
    have hkf : killFlag s = false := by simp [killFlag, hf]
    constructor
    · rw [stepExec_char]; simpa using hres
    · rw [stepExec_char]
      simp only [hkf]
      rw [List.getLast?_concat]
  · have hkf : killFlag s = decide (c = 0) := by simp [killFlag, hc]
    rw [stepExec_char]
    simp [List.filter_append, hkf]

/-- Witness for C2: a step faulting in its `run` hook has its teardown
called with `success = false` before the fault reaches the caller, and a
step failing with status 7 gets `success = false` on the normal path. -/
theorem c2_teardown_called_on_fault_witness :
    ((stepExec 0 ⟨.ok 0, .ok 0, .fault, .ok 0⟩).1 = .raised ∧
      (stepExec 0 ⟨.ok 0, .ok 0, .fault, .ok 0⟩).2.getLast?
        = some (.kill 0 false)) ∧
    (stepExec 0 ⟨.ok 0, .ok 0, .ok 7, .ok 0⟩).2.filter isKillEvent
        = [.kill 0 (decide ((7 : Int) = 0))] ∧
    (∃ j, (runSteps 0 [⟨.ok 0, .ok 0, .fault, .ok 0⟩]).2.getLast?
        = some (.kill j false)) :=
  ⟨(c2_teardown_called_on_fault 0 ⟨.ok 0, .ok 0, .fault, .ok 0⟩ []).1 (by decide),
    (c2_teardown_called_on_fault 0 ⟨.ok 0, .ok 0, .ok 7, .ok 0⟩ []).2.1 7 (by decide),
    (c2_teardown_called_on_fault 0 ⟨.ok 0, .ok 0, .fault, .ok 0⟩
      [⟨.ok 0, .ok 0, .fault, .ok 0⟩]).2.2 (by decide)⟩

/-- C10: every step the runner instantiates has exactly one `kill` event
in the whole run trace, carrying `success = false` if the step faulted
(in which case the run itself propagates the fault) and
`success = (status == 0)` otherwise. -/
theorem c10_kill_exactly_once (steps : List Step) (j : Nat) (s : Step)
    (hg : steps.get? j = some s)
    (hmem : Event.inst j ∈ (Runner.run steps).2) :
    (Runner.run steps).2.filter (isKillOf j) = [Event.kill j (killFlag s)] ∧
    (stepOutcome s = .fault → (Runner.run steps).1 = .raised) := by
  have h0 : Event.inst (0 + j) ∈ (runSteps 0 steps).2 := by
    simpa [Runner.run] using hmem
  have := runSteps_kill_once steps 0 j s hg h0
  simpa [Runner.run] using this

/-- Witness for C10 at a two-step list whose second step fails with
status 3: both instantiated steps get exactly one teardown call, with
flags `true` and `false` respectively. -/
theorem c10_kill_exactly_once_witness :
    ((Runner.run [⟨.ok 0, .ok 0, .ok 0, .ok 0⟩, ⟨.ok 0, .ok 0, .ok 3, .ok 0⟩]).2.filter
        (isKillOf 1)
      = [Event.kill 1 (killFlag ⟨.ok 0, .ok 0, .ok 3, .ok 0⟩)]) ∧
    ((Runner.run [⟨.ok 0, .ok 0, .ok 0, .ok 0⟩, ⟨.ok 0, .ok 0, .ok 3, .ok 0⟩]).2.filter
        (isKillOf 0)
      = [Event.kill 0 (killFlag (⟨.ok 0, .ok 0, .ok 0, .ok 0⟩ : Step))]) :=
  ⟨(c10_kill_exactly_once [⟨.ok 0, .ok 0, .ok 0, .ok 0⟩, ⟨.ok 0, .ok 0, .ok 3, .ok 0⟩]
      1 ⟨.ok 0, .ok 0, .ok 3, .ok 0⟩ (by decide) (by decide)).1,
    (c10_kill_exactly_once [⟨.ok 0, .ok 0, .ok 0, .ok 0⟩, ⟨.ok 0, .ok 0, .ok 3, .ok 0⟩]
      0 ⟨.ok 0, .ok 0, .ok 0, .ok 0⟩ (by decide) (by decide)).1⟩

end Molecule
